import Mathlib

/-!
Verification of the crypto-compare dashboard core logic.

This file gives a shallow embedding of the repository's data model and the
operations its specification talks about:

* `src/types/index.ts` — `Coin`, `SelectedAsset`, `SortField`, `SortDirection`;
* `src/utils/priceUtils.ts` — `CHART_COLORS`, `getColor`, `formatPrice`,
  `calculateChange`, `normalizePrices`;
* `src/App.tsx` — `fetchWithRetry`, the reference-date-change effect, the
  asset-list handlers `handleAddPinned`, `handleAddComparison`,
  `handleRemoveAsset`, `handleToggleVisibility`;
* `src/components/PriceChart.tsx` — the chart-data builder and the table sort
  comparator.

JavaScript numbers are modelled as rationals (`ℚ`) for prices and integers
(`ℤ`) for millisecond timestamps; JS `Map`/`Set` values are modelled as
association lists / lists of keys; `null`/`undefined` become `Option`.
-/

/-- Coin record from the CoinGecko markets endpoint (src/types/index.ts).
`current_price` is `Option ℚ` because the table sort reads it with `?? 0`,
so the runtime value may be missing. -/
structure Coin where
  id : String
  symbol : String
  name : String
  image : String
  current_price : Option ℚ
  market_cap : ℚ
  market_cap_rank : ℕ
  deriving DecidableEq

/-- A user-selected asset (src/types/index.ts). -/
structure SelectedAsset where
  coin : Coin
  isPinned : Bool
  color : String
  visible : Bool
  historicalPrice : Option ℚ
  deriving DecidableEq

/-- The fixed colour palette (src/utils/priceUtils.ts, `CHART_COLORS`). -/
def CHART_COLORS : List String :=
  ["#05d9e8", "#ff2a6d", "#d300c5", "#00ff88", "#ffb800",
   "#7b2cbf", "#00d4ff", "#ff6b6b", "#9d4edd", "#00ffcc"]

/-- `getColor(index)` = `CHART_COLORS[index % CHART_COLORS.length]`
(src/utils/priceUtils.ts). The index is always in bounds, so `getD` with a
default never fires. -/
def getColor (index : ℕ) : String :=
  CHART_COLORS.getD (index % CHART_COLORS.length) ""

/-- Insert a comma after every third character of a reversed digit list;
models the `en-US` thousands grouping of `Number.prototype.toLocaleString`. -/
def insertCommas : List Char → List Char
  | [] => []
  | [a] => [a]
  | [a, b] => [a, b]
  | [a, b, c] => [a, b, c]
  | a :: b :: c :: d :: rest => a :: b :: c :: ',' :: insertCommas (d :: rest)

/-- Decimal representation of a natural number with `en-US` thousands
separators, e.g. `1234 ↦ "1,234"`. -/
def commaSep (n : ℕ) : String :=
  String.mk ((insertCommas (toString n).data.reverse).reverse)

/-- Decimal representation of `v` left-padded with zeros to `width` digits. -/
def natToPadded (v : ℕ) (width : ℕ) : String :=
  let s := toString v
  String.mk (List.replicate (width - s.length) '0') ++ s

/-- Model of JavaScript `price.toFixed(digits)` for non-negative `price` and
positive `digits`: round half away from zero to `digits` decimals and always
print exactly `digits` fraction digits, with no thousands grouping. -/
def toFixed (q : ℚ) (digits : ℕ) : String :=
  let v : ℕ := (⌊q * (10 : ℚ) ^ digits + 1/2⌋).toNat
  toString (v / 10 ^ digits) ++ "." ++ natToPadded (v % 10 ^ digits) digits

/-- Model of `price.toLocaleString('en-US', \x7b maximumFractionDigits: 2 \x7d)`
for non-negative `price`: round half away from zero to at most two decimals,
drop trailing fraction zeros (minimumFractionDigits defaults to 0), and group
the integer part with commas. -/
def toLocaleMax2 (q : ℚ) : String :=
  let v : ℕ := (⌊q * 100 + 1/2⌋).toNat
  let intPart := v / 100
  let frac := v % 100
  if frac = 0 then commaSep intPart
  else if frac % 10 = 0 then commaSep intPart ++ "." ++ toString (frac / 10)
  else if frac < 10 then commaSep intPart ++ ".0" ++ toString frac
  else commaSep intPart ++ "." ++ toString frac

/-- `formatPrice` (src/utils/priceUtils.ts): `---` placeholder for a missing
price, locale formatting with at most two decimals at or above 1000, and
`toFixed` with 2/4/8 decimals on the smaller ranges. -/
def formatPrice : Option ℚ → String
  | none => "---"
  | some price =>
    if 1000 ≤ price then "$" ++ toLocaleMax2 price
    else if 1 ≤ price then "$" ++ toFixed price 2
    else if 1/100 ≤ price then "$" ++ toFixed price 4
    else "$" ++ toFixed price 8

/-- `calculateChange` (src/utils/priceUtils.ts): `null` when either price is
missing or the historical price is zero, else the percentage change. -/
def calculateChange : Option ℚ → Option ℚ → Option ℚ
  | none, _ => none
  | some _, none => none
  | some h, some c => if h = 0 then none else some ((c - h) / h * 100)

/-- The closest-point scan shared by `normalizePrices`
(src/utils/priceUtils.ts lines 59-70) and the chart builder
(src/components/PriceChart.tsx lines 113-123): walk the series keeping the
value whose timestamp has strictly smaller absolute difference from the
reference than the best so far (`minDiff` starts at `Infinity`, modelled by
the `none` state; ties keep the first-encountered point). -/
def findRefAux (ref : ℤ) : Option (ℕ × ℚ) → List (ℤ × ℚ) → Option ℚ
  | best, [] => best.map (·.2)
  | none, (ts, price) :: rest =>
    findRefAux ref (some ((ts - ref).natAbs, price)) rest
  | some (m, rp), (ts, price) :: rest =>
    if (ts - ref).natAbs < m then
      findRefAux ref (some ((ts - ref).natAbs, price)) rest
    else findRefAux ref (some (m, rp)) rest

/-- The reference price of a series: the value of the point closest to the
reference timestamp, `none` for the empty series. -/
def findReference (priceData : List (ℤ × ℚ)) (ref : ℤ) : Option ℚ :=
  findRefAux ref none priceData

/-- `normalizePrices` (src/utils/priceUtils.ts): for each series keep it only
when the reference price exists and is strictly positive (the JS guard
`referencePrice && referencePrice > 0`), rescaling every value to
`value / referencePrice * 100`. -/
def normalizePrices (prices : List (String × List (ℤ × ℚ)))
    (referenceTimestamp : ℤ) : List (String × List (ℤ × ℚ)) :=
  prices.filterMap fun entry =>
    match findReference entry.2 referenceTimestamp with
    | none => none
    | some referencePrice =>
      if 0 < referencePrice then
        some (entry.1, entry.2.map fun q => (q.1, q.2 / referencePrice * 100))
      else none

/-- `fetchWithRetry` (src/App.tsx lines 29-40), with the response modelled by
its HTTP status code, the only part the function inspects. `responses i` is
the status of the `i`-th request to the URL. The result is the number of
requests issued paired with either the returned status or the thrown error
message. Attempt `i` of the `for` loop: on status 429 sleep and continue,
otherwise return the response; after the loop throw. -/
def fetchWithRetryAux (responses : ℕ → ℕ) : ℕ → ℕ → ℕ × Except String ℕ
  | i, 0 => (i, .error "Rate limited after retries")
  | i, fuel + 1 =>
    let s := responses i
    if s = 429 then fetchWithRetryAux responses (i + 1) fuel
    else (i + 1, .ok s)

/-- `fetchWithRetry(url, retries)`; every call site uses the default
`retries = 3`. -/
def fetchWithRetry (responses : ℕ → ℕ) (retries : ℕ) : ℕ × Except String ℕ :=
  fetchWithRetryAux responses 0 retries

/-- The mutable state of `CryptoCompareApp` (src/App.tsx) that the cache
claims are about: `currentDateRef` (as the date's ISO-string key),
`selectedAssets`, `fetchedCoinsRef` (a JS `Set`, modelled as a list of ids),
and the three caches `historicalPrices`, `priceChartData`,
`marketCapChartData` (JS `Map`s, modelled as association lists). -/
structure AppState where
  dateKey : String
  selectedAssets : List SelectedAsset
  fetchedCoins : List String
  historicalPrices : List (String × ℚ)
  priceChartData : List (String × List (ℤ × ℚ))
  marketCapChartData : List (String × List (ℤ × ℚ))
  deriving DecidableEq

/-- The date-change effect (src/App.tsx lines 76-86): when the new date key
differs from `currentDateRef.current`, store the new key, reset
`fetchedCoinsRef` to an empty set and all three caches to empty maps;
otherwise do nothing. -/
def dateChangeEffect (s : AppState) (newKey : String) : AppState :=
  if s.dateKey ≠ newKey then
    { s with
        dateKey := newKey
        fetchedCoins := []
        historicalPrices := []
        priceChartData := []
        marketCapChartData := [] }
  else s

/-- `MAX_PINNED` (src/App.tsx line 23). -/
def MAX_PINNED : ℕ := 4

/-- `handleAddPinned` (src/App.tsx lines 198-212): refuse when the pinned
count reached `MAX_PINNED` or the coin id is already selected; otherwise
append a pinned, visible asset coloured by the current list length. -/
def handleAddPinned (prev : List SelectedAsset) (coin : Coin) :
    List SelectedAsset :=
  if MAX_PINNED ≤ (prev.filter (·.isPinned)).length then prev
  else if prev.any (fun a => a.coin.id == coin.id) then prev
  else prev ++ [⟨coin, true, getColor prev.length, true, none⟩]

/-- `handleAddComparison` (src/App.tsx lines 214-227): refuse when the coin id
is already selected; otherwise append an unpinned, visible asset coloured by
the current list length. -/
def handleAddComparison (prev : List SelectedAsset) (coin : Coin) :
    List SelectedAsset :=
  if prev.any (fun a => a.coin.id == coin.id) then prev
  else prev ++ [⟨coin, false, getColor prev.length, true, none⟩]

/-- The asset-list part of `handleRemoveAsset` (src/App.tsx lines 229-247). -/
def handleRemoveAsset (prev : List SelectedAsset) (coinId : String) :
    List SelectedAsset :=
  prev.filter (fun a => a.coin.id != coinId)

/-- `handleToggleVisibility` (src/App.tsx lines 249-253). -/
def handleToggleVisibility (prev : List SelectedAsset) (coinId : String) :
    List SelectedAsset :=
  prev.map fun a =>
    if a.coin.id == coinId then { a with visible := !a.visible } else a

/-- The four asset-list operations the user can trigger. -/
inductive AssetOp where
  | addPinned (coin : Coin)
  | addComparison (coin : Coin)
  | remove (coinId : String)
  | toggleVisibility (coinId : String)
  deriving DecidableEq

/-- Whether an operation is a removal. -/
def isRemoveOp : AssetOp → Bool
  | .remove _ => true
  | _ => false

/-- Apply one operation to the selected-asset list. -/
def applyOp (s : List SelectedAsset) : AssetOp → List SelectedAsset
  | .addPinned c => handleAddPinned s c
  | .addComparison c => handleAddComparison s c
  | .remove cid => handleRemoveAsset s cid
  | .toggleVisibility cid => handleToggleVisibility s cid

/-- Apply a sequence of operations, oldest first. -/
def applyOps (ops : List AssetOp) (s : List SelectedAsset) :
    List SelectedAsset :=
  ops.foldl applyOp s

/-- Number of pinned assets, `prev.filter((a) => a.isPinned).length`. -/
def pinnedCount (l : List SelectedAsset) : ℕ :=
  (l.filter (·.isPinned)).length

/-- The invariant of §3 of the spec: at most `MAX_PINNED` pinned assets and
no coin id selected twice. -/
def assetInvariant (l : List SelectedAsset) : Prop :=
  pinnedCount l ≤ MAX_PINNED ∧ (l.map (·.coin.id)).Nodup

/-- The closest-point scan inlined in the chart builder
(src/components/PriceChart.tsx lines 113-123); it is the same loop as the one
in `normalizePrices`, searching the sample nearest to a given timestamp. -/
def closestValue (prices : List (ℤ × ℚ)) (ts : ℤ) : Option ℚ :=
  findRefAux ts none prices

/-- One synthesized chart record: the retained timestamp together with the
per-asset values attached under the asset's coin id
(src/components/PriceChart.tsx lines 104-135). The `date` display string is
presentational (`format(new Date(timestamp), 'MMM d, yyyy')`) and carries no
data, so it is not modelled. -/
structure ChartRecord where
  timestamp : ℤ
  values : List (String × ℚ)
  deriving DecidableEq

/-- `timestamps.filter((_, i) => i % step === 0)`
(src/components/PriceChart.tsx line 101), written with the running index
explicit. -/
def sampleEvery (step : ℕ) : ℕ → List ℤ → List ℤ
  | _, [] => []
  | i, x :: xs =>
    if i % step = 0 then x :: sampleEvery step (i + 1) xs
    else sampleEvery step (i + 1) xs

/-- The visible assets that have a series loaded
(src/components/PriceChart.tsx lines 29-32): `assets.filter(a => a.visible)`
then `.filter(a => priceData.has(a.coin.id))`. -/
def assetsWithData (assets : List SelectedAsset)
    (priceData : List (String × List (ℤ × ℚ))) : List SelectedAsset :=
  (assets.filter (·.visible)).filter
    (fun a => (priceData.lookup a.coin.id).isSome)

/-- The sorted union of the timestamps of all contributing series
(src/components/PriceChart.tsx lines 86-96): a JS `Set` (deduplication)
turned into an array and sorted ascending. On deduplicated elements the sort
result is the unique ascending arrangement, rendered here by insertion
sort. -/
def chartTimestamps (assets : List SelectedAsset)
    (priceData : List (String × List (ℤ × ℚ))) : List ℤ :=
  (((assetsWithData assets priceData).flatMap
      (fun a => ((priceData.lookup a.coin.id).getD []).map Prod.fst)).dedup).insertionSort
    (· ≤ ·)

/-- The sampling stride (src/components/PriceChart.tsx lines 99-100):
`Math.ceil(length / 500)` when more than 500 timestamps, else 1. -/
def chartStep (assets : List SelectedAsset)
    (priceData : List (String × List (ℤ × ℚ))) : ℕ :=
  if 500 < (chartTimestamps assets priceData).length then
    ((chartTimestamps assets priceData).length + 499) / 500
  else 1

/-- `sampledTimestamps` (src/components/PriceChart.tsx line 101). -/
def sampledTimestamps (assets : List SelectedAsset)
    (priceData : List (String × List (ℤ × ℚ))) : List ℤ :=
  sampleEvery (chartStep assets priceData) 0 (chartTimestamps assets priceData)

/-- The values attached to the record for one retained timestamp
(src/components/PriceChart.tsx lines 110-129): for each contributing asset,
the sample of its series closest to the timestamp, keyed by the coin id. -/
def chartPointValues (assets : List SelectedAsset)
    (priceData : List (String × List (ℤ × ℚ))) (ts : ℤ) :
    List (String × ℚ) :=
  (assetsWithData assets priceData).filterMap fun a =>
    match priceData.lookup a.coin.id with
    | some prices => (closestValue prices ts).map (fun v => (a.coin.id, v))
    | none => none

/-- `chartData` (src/components/PriceChart.tsx lines 104-135): one record per
retained timestamp, kept only when `Object.keys(point)` has a key other than
`timestamp` and `date` — that is, at least one attached asset value whose
coin id is not one of the two reserved field names. -/
def buildChartData (assets : List SelectedAsset)
    (priceData : List (String × List (ℤ × ℚ))) : List ChartRecord :=
  (sampledTimestamps assets priceData).filterMap fun ts =>
    let vals := chartPointValues assets priceData ts
    if vals.any (fun p => !(p.1 == "timestamp") && !(p.1 == "date")) then
      some ⟨ts, vals⟩
    else none

/-- Sortable table columns (src/types/index.ts, `SortField`). -/
inductive SortField where
  | name
  | symbol
  | historicalPrice
  | currentPrice
  | change
  deriving DecidableEq

/-- Sort direction (src/types/index.ts, `SortDirection`). -/
inductive SortDirection where
  | asc
  | desc
  deriving DecidableEq

/-- The `comparison` value of the table sort comparator
(src/components/PriceChart.tsx analogue in `PriceTable`, lines 287-308).
`localeCompare` is locale-dependent, so it is passed in as a parameter; the
three numeric columns substitute 0 for a missing value via `?? 0`. -/
def sortComparison (localeCompare : String → String → ℚ)
    (field : SortField) (a b : SelectedAsset) : ℚ :=
  match field with
  | .name => localeCompare a.coin.name b.coin.name
  | .symbol => localeCompare a.coin.symbol b.coin.symbol
  | .historicalPrice => a.historicalPrice.getD 0 - b.historicalPrice.getD 0
  | .currentPrice =>
    a.coin.current_price.getD 0 - b.coin.current_price.getD 0
  | .change =>
    (calculateChange a.historicalPrice a.coin.current_price).getD 0 -
      (calculateChange b.historicalPrice b.coin.current_price).getD 0

/-- The comparator actually handed to `sort`: the raw comparison when
ascending, its negation when descending (PriceTable line 310). -/
def sortCompare (localeCompare : String → String → ℚ) (field : SortField)
    (dir : SortDirection) (a b : SelectedAsset) : ℚ :=
  match dir with
  | .asc => sortComparison localeCompare field a b
  | .desc => -(sortComparison localeCompare field a b)

/-- Concrete coin used by witnesses and counterexamples. -/
def coinA : Coin := ⟨"a", "aaa", "Acoin", "a.png", some 3, 30, 1⟩

/-- Concrete coin used by witnesses and counterexamples. -/
def coinB : Coin := ⟨"b", "bbb", "Bcoin", "b.png", some 2, 20, 2⟩

/-- Concrete coin used by witnesses and counterexamples. -/
def coinC : Coin := ⟨"c", "ccc", "Ccoin", "c.png", some 1, 10, 3⟩

/-- Concrete coin with no current price, used by witnesses. -/
def coinNoPrice : Coin := ⟨"d", "ddd", "Dcoin", "d.png", none, 0, 4⟩

/-- Concrete coin with current price 0, used by witnesses. -/
def coinZeroPrice : Coin := ⟨"e", "eee", "Ecoin", "e.png", some 0, 0, 5⟩

/-- Concrete coin used by witnesses of the pinned-count guard. -/
def coinF : Coin := ⟨"f", "fff", "Fcoin", "f.png", some 4, 40, 6⟩

/-- Concrete selected asset for coin "a", used by witnesses. -/
def assetA : SelectedAsset := ⟨coinA, true, "#05d9e8", true, none⟩

/-- Concrete selected asset with no historical price, no current price, and
hence no percent change. -/
def assetMissing : SelectedAsset := ⟨coinNoPrice, true, "#05d9e8", true, none⟩

/-- Concrete selected asset whose historical price is literally 0. -/
def assetHistZero : SelectedAsset := ⟨coinNoPrice, true, "#05d9e8", true, some 0⟩

/-- Concrete selected asset whose current price is literally 0. -/
def assetCurrZero : SelectedAsset := ⟨coinZeroPrice, false, "#ff2a6d", true, none⟩

/-- Concrete selected asset whose percent change is literally 0
(historical = current = 1). -/
def assetChangeZero : SelectedAsset := ⟨coinC, true, "#d300c5", true, some 1⟩

/-- Concrete selected asset for coin "b" with a historical price. -/
def assetB : SelectedAsset := ⟨coinB, false, "#ff2a6d", true, some 5⟩

/-- A list of four pinned assets, saturating `MAX_PINNED`. -/
def fourPinned : List SelectedAsset :=
  [⟨coinA, true, getColor 0, true, none⟩,
   ⟨coinB, true, getColor 1, true, none⟩,
   ⟨coinC, true, getColor 2, true, none⟩,
   ⟨coinNoPrice, true, getColor 3, true, none⟩]

/-! ## Theorems -/

/-- Evaluation of `formatPrice` on 1234.5 (the ≥ 1000 locale branch). -/
theorem formatPrice_thousands : formatPrice (some (1234.5 : ℚ)) = "$1,234.5" := by
  simp only [formatPrice, toLocaleMax2]
  norm_num [Int.toNat_ofNat]
  decide

/-- Evaluation of `formatPrice` on 0.5 (the `toFixed(4)` branch). -/
theorem formatPrice_half : formatPrice (some (0.5 : ℚ)) = "$0.5000" := by
  simp only [formatPrice, toFixed]
  norm_num [Int.toNat_ofNat]
  decide

/-- Evaluation of `formatPrice` on 0.000001 (the `toFixed(8)` branch). -/
theorem formatPrice_micro :
    formatPrice (some (0.000001 : ℚ)) = "$0.00000100" := by
  simp only [formatPrice, toFixed]
  norm_num [Int.toNat_ofNat]
  decide

/-- C9 counterexample: on input 1234.5 the code produces "$1,234.5" — only
`maximumFractionDigits` is set, so the trailing zero of the claimed
"$1,234.50" is never emitted. -/
theorem c9_counterexample :
    formatPrice (some (1234.5 : ℚ)) = "$1,234.5" ∧
      formatPrice (some (1234.5 : ℚ)) ≠ "$1,234.50" :=
  ⟨formatPrice_thousands, by rw [formatPrice_thousands]; decide⟩

/-- C9 (amended): formatPrice maps 1234.5 to "$1,234.5", 0.5 to "$0.5000",
0.000001 to "$0.00000100", and a missing price to the placeholder "---". -/
theorem c9_formatPrice_values :
    formatPrice (some (1234.5 : ℚ)) = "$1,234.5" ∧
    formatPrice (some (0.5 : ℚ)) = "$0.5000" ∧
    formatPrice (some (0.000001 : ℚ)) = "$0.00000100" ∧
    formatPrice none = "---" :=
  ⟨formatPrice_thousands, formatPrice_half, formatPrice_micro, rfl⟩

/-- C1: changing the reference date to any key different from the current one
empties the historical-price cache, both time-series caches, and the
already-fetched id set. -/
theorem c1_date_change_clears_caches (s : AppState) (newKey : String)
    (h : newKey ≠ s.dateKey) :
    (dateChangeEffect s newKey).historicalPrices = [] ∧
    (dateChangeEffect s newKey).priceChartData = [] ∧
    (dateChangeEffect s newKey).marketCapChartData = [] ∧
    (dateChangeEffect s newKey).fetchedCoins = [] := by
  unfold dateChangeEffect
  rw [if_pos (Ne.symm h)]
  exact ⟨rfl, rfl, rfl, rfl⟩

/-- Witness for C1 at a concrete state and a concrete new date key. -/
theorem c1_witness :
    (dateChangeEffect
        ⟨"2025-09-11", [], ["bitcoin"], [("bitcoin", 5)], [], []⟩
        "2025-10-11").historicalPrices = [] ∧
    (dateChangeEffect
        ⟨"2025-09-11", [], ["bitcoin"], [("bitcoin", 5)], [], []⟩
        "2025-10-11").priceChartData = [] ∧
    (dateChangeEffect
        ⟨"2025-09-11", [], ["bitcoin"], [("bitcoin", 5)], [], []⟩
        "2025-10-11").marketCapChartData = [] ∧
    (dateChangeEffect
        ⟨"2025-09-11", [], ["bitcoin"], [("bitcoin", 5)], [], []⟩
        "2025-10-11").fetchedCoins = [] :=
  c1_date_change_clears_caches _ _ (by decide)

/-- When every response in the window is a 429, the retry loop burns all its
attempts and throws. -/
theorem fetchWithRetryAux_all429 (responses : ℕ → ℕ) :
    ∀ fuel i, (∀ j, i ≤ j → j < i + fuel → responses j = 429) →
      fetchWithRetryAux responses i fuel =
        (i + fuel, .error "Rate limited after retries") := by
  intro fuel
  induction fuel with
  | zero => intro i _; simp [fetchWithRetryAux]
  | succ n ih =>
    intro i h
    have h429 : responses i = 429 := h i le_rfl (by omega)
    have e : i + 1 + n = i + (n + 1) := by omega
    have step : fetchWithRetryAux responses i (n + 1) =
        fetchWithRetryAux responses (i + 1) n := by
      simp [fetchWithRetryAux, h429]
    rw [step, ih (i + 1) (fun j h1 h2 => h j (by omega) (by omega)), e]

/-- The first non-429 response is returned, after exactly one request per
preceding 429. -/
theorem fetchWithRetryAux_first_ok (responses : ℕ → ℕ) :
    ∀ fuel i k, i ≤ k → k < i + fuel →
      (∀ j, i ≤ j → j < k → responses j = 429) → responses k ≠ 429 →
      fetchWithRetryAux responses i fuel = (k + 1, .ok (responses k)) := by
  intro fuel
  induction fuel with
  | zero => intro i k h1 h2 _ _; omega
  | succ n ih =>
    intro i k h1 h2 hall hk
    rcases Nat.eq_or_lt_of_le h1 with rfl | hlt
    · simp [fetchWithRetryAux, hk]
    · have h429 : responses i = 429 := hall i le_rfl hlt
      simp only [fetchWithRetryAux, h429, if_pos rfl]
      exact ih (i + 1) k (by omega) (by omega)
        (fun j hj1 hj2 => hall j (by omega) hj2) hk

/-- The loop never issues more requests than it has attempts. -/
theorem fetchWithRetryAux_count_le (responses : ℕ → ℕ) :
    ∀ fuel i, (fetchWithRetryAux responses i fuel).1 ≤ i + fuel := by
  intro fuel
  induction fuel with
  | zero => intro i; simp [fetchWithRetryAux]
  | succ n ih =>
    intro i
    simp only [fetchWithRetryAux]
    split
    · exact le_trans (ih (i + 1)) (by omega)
    · simp

/-- C2: with the default 3 attempts, if every response is 429 the function
issues exactly 3 requests and fails with the rate-limit error; if attempt `k`
is the first non-429 one, its response is returned after `k + 1` requests;
and the number of requests never exceeds 3. -/
theorem c2_fetchWithRetry_spec (responses : ℕ → ℕ) :
    ((∀ i, i < 3 → responses i = 429) →
      fetchWithRetry responses 3 = (3, .error "Rate limited after retries")) ∧
    (∀ k, k < 3 → (∀ j, j < k → responses j = 429) → responses k ≠ 429 →
      fetchWithRetry responses 3 = (k + 1, .ok (responses k))) ∧
    (fetchWithRetry responses 3).1 ≤ 3 := by
  refine ⟨fun h => ?_, fun k hk hall hne => ?_, ?_⟩
  · have := fetchWithRetryAux_all429 responses 3 0
      (fun j h1 h2 => h j (by omega))
    simpa [fetchWithRetry] using this
  · exact fetchWithRetryAux_first_ok responses 3 0 k (by omega) (by omega)
      (fun j _ hj => hall j hj) hne
  · have := fetchWithRetryAux_count_le responses 3 0
    simpa [fetchWithRetry] using this

/-- Witness for C2: an all-429 stream exhausts the 3 attempts and fails, and
a stream whose second response is 200 returns it after 2 requests. -/
theorem c2_witness :
    fetchWithRetry (fun _ => 429) 3 =
        (3, .error "Rate limited after retries") ∧
      fetchWithRetry (fun i => if i = 1 then 200 else 429) 3 = (2, .ok 200) := by
  constructor
  · exact (c2_fetchWithRetry_spec (fun _ => 429)).1 (fun i _ => rfl)
  · have h := (c2_fetchWithRetry_spec (fun i => if i = 1 then 200 else 429)).2.1
      1 (by omega)
      (fun j hj => by
        have : j = 0 := by omega
        subst this; rfl)
      (by decide)
    simpa using h

/-- C10: in the table sort, an asset with a missing historical price, current
price, or percent change (including the change being undefined because the
historical price is zero) compares, in either argument position and either
direction, exactly as an asset whose corresponding value is literally 0. -/
theorem c10_missing_sorts_as_zero (lc : String → String → ℚ)
    (dir : SortDirection) (a b a0 : SelectedAsset) :
    (a.historicalPrice = none → a0.historicalPrice = some 0 →
      sortCompare lc .historicalPrice dir a b =
          sortCompare lc .historicalPrice dir a0 b ∧
        sortCompare lc .historicalPrice dir b a =
          sortCompare lc .historicalPrice dir b a0) ∧
    (a.coin.current_price = none → a0.coin.current_price = some 0 →
      sortCompare lc .currentPrice dir a b =
          sortCompare lc .currentPrice dir a0 b ∧
        sortCompare lc .currentPrice dir b a =
          sortCompare lc .currentPrice dir b a0) ∧
    (calculateChange a.historicalPrice a.coin.current_price = none →
      calculateChange a0.historicalPrice a0.coin.current_price = some 0 →
      sortCompare lc .change dir a b = sortCompare lc .change dir a0 b ∧
        sortCompare lc .change dir b a = sortCompare lc .change dir b a0) := by
  refine ⟨fun h h0 => ?_, fun h h0 => ?_, fun h h0 => ?_⟩ <;>
    cases dir <;> simp [sortCompare, sortComparison, h, h0]

/-- Witness for C10: a concrete asset with all data missing compares equal to
assets carrying a literal 0 in each numeric column. -/
theorem c10_witness :
    (sortCompare (fun _ _ => 0) .historicalPrice .asc assetMissing assetB =
      sortCompare (fun _ _ => 0) .historicalPrice .asc assetHistZero assetB) ∧
    (sortCompare (fun _ _ => 0) .currentPrice .asc assetMissing assetB =
      sortCompare (fun _ _ => 0) .currentPrice .asc assetCurrZero assetB) ∧
    (sortCompare (fun _ _ => 0) .change .asc assetMissing assetB =
      sortCompare (fun _ _ => 0) .change .asc assetChangeZero assetB) := by
  refine
    ⟨((c10_missing_sorts_as_zero (fun _ _ => 0) .asc assetMissing assetB
        assetHistZero).1 rfl rfl).1,
     ((c10_missing_sorts_as_zero (fun _ _ => 0) .asc assetMissing assetB
        assetCurrZero).2.1 rfl rfl).1,
     ((c10_missing_sorts_as_zero (fun _ _ => 0) .asc assetMissing assetB
        assetChangeZero).2.2 rfl ?_).1⟩
  norm_num [calculateChange, assetChangeZero, coinC]

/-- Once the scan has a best point at distance 0, no later point can replace
it: the update condition is a strict `<` into a natural number. -/
theorem findRefAux_zero_locked (ref : ℤ) (p : ℚ) :
    ∀ l, findRefAux ref (some (0, p)) l = some p := by
  intro l
  induction l with
  | nil => rfl
  | cons q rest ih =>
    obtain ⟨ts, price⟩ := q
    simp only [findRefAux]
    rw [if_neg (Nat.not_lt_zero _)]
    exact ih

/-- If no point before the first exact hit has the reference timestamp, the
scan returns the price of that first exact hit. -/
theorem findRefAux_first_exact (ref : ℤ) (p : ℚ) :
    ∀ (l₁ : List (ℤ × ℚ)) (best : Option (ℕ × ℚ)) (l₂ : List (ℤ × ℚ)),
      (∀ q ∈ l₁, q.1 ≠ ref) →
      (best = none ∨ ∃ m rp, best = some (m, rp) ∧ m ≠ 0) →
      findRefAux ref best (l₁ ++ (ref, p) :: l₂) = some p := by
  intro l₁
  induction l₁ with
  | nil =>
    intro best l₂ _ hbest
    have hz : (ref - ref).natAbs = 0 := by omega
    rcases hbest with rfl | ⟨m, rp, rfl, hm⟩
    · simp only [List.nil_append, findRefAux, hz]
      exact findRefAux_zero_locked ref p l₂
    · simp only [List.nil_append, findRefAux, hz]
      rw [if_pos (Nat.pos_of_ne_zero hm)]
      exact findRefAux_zero_locked ref p l₂
  | cons q l₁' ih =>
    intro best l₂ hne hbest
    obtain ⟨ts, price⟩ := q
    have hts : ts ≠ ref := hne (ts, price) (List.mem_cons_self _ _)
    have hd : (ts - ref).natAbs ≠ 0 := by omega
    have hrest : ∀ q ∈ l₁', q.1 ≠ ref :=
      fun q hq => hne q (List.mem_cons_of_mem _ hq)
    rcases hbest with rfl | ⟨m, rp, rfl, hm⟩
    · simp only [List.cons_append, findRefAux]
      exact ih _ l₂ hrest (Or.inr ⟨_, _, rfl, hd⟩)
    · simp only [List.cons_append, findRefAux]
      by_cases hcmp : (ts - ref).natAbs < m
      · rw [if_pos hcmp]
        exact ih _ l₂ hrest (Or.inr ⟨_, _, rfl, hd⟩)
      · rw [if_neg hcmp]
        exact ih _ l₂ hrest (Or.inr ⟨_, _, rfl, hm⟩)

/-- C3 (amended): if a series contains a point whose timestamp equals the
reference timestamp exactly and no earlier point shares that timestamp, and
its value is positive (so the series appears in the output of
`normalizePrices`), then the output value at that point is 100. (Later
duplicate points carrying the reference timestamp may normalize to values
other than 100 — see the counterexample.) -/
theorem c3_normalize_first_exact_ref (prices : List (String × List (ℤ × ℚ)))
    (ref : ℤ) (id : String) (l₁ l₂ : List (ℤ × ℚ)) (p : ℚ)
    (hmem : (id, l₁ ++ (ref, p) :: l₂) ∈ prices)
    (hfirst : ∀ q ∈ l₁, q.1 ≠ ref) (hp : 0 < p) :
    ((id, (l₁ ++ (ref, p) :: l₂).map fun q => (q.1, q.2 / p * 100)) ∈
        normalizePrices prices ref) ∧
      ((l₁ ++ (ref, p) :: l₂).map fun q =>
          (q.1, q.2 / p * 100))[l₁.length]? = some (ref, 100) := by
  have hfind : findReference (l₁ ++ (ref, p) :: l₂) ref = some p :=
    findRefAux_first_exact ref p l₁ none l₂ hfirst (Or.inl rfl)
  constructor
  · apply List.mem_filterMap.mpr
    refine ⟨(id, l₁ ++ (ref, p) :: l₂), hmem, ?_⟩
    simp only [hfind, if_pos hp]
  · rw [List.getElem?_map, List.getElem?_append_right le_rfl]
    simp only [Nat.sub_self, List.getElem?_cons_zero, Option.map_some']
    rw [div_self (ne_of_gt hp)]
    norm_num

/-- Evaluation of `normalizePrices` on a series with a duplicated reference
timestamp: the scan fixes the reference price at the first hit (value 2), so
the later point at the same timestamp normalizes to 150. -/
theorem normalizePrices_dup_eval :
    normalizePrices [("a", [((5 : ℤ), (2 : ℚ)), (5, 3)])] 5 =
      [("a", [(5, 100), (5, 150)])] := by
  simp [normalizePrices, findReference, findRefAux]
  norm_num

/-- C3 counterexample: in the input map \x7b"a" ↦ [(5, 2), (5, 3)]\x7d with
reference timestamp 5, the point at index 1 has exactly the reference
timestamp and the series appears in the output, yet its output value is 150,
not 100. -/
theorem c3_counterexample :
    (([((5 : ℤ), (2 : ℚ)), (5, 3)] : List (ℤ × ℚ))[1]? = some (5, 3)) ∧
    normalizePrices [("a", [((5 : ℤ), (2 : ℚ)), (5, 3)])] 5 =
      [("a", [(5, 100), (5, 150)])] ∧
    (150 : ℚ) ≠ 100 :=
  ⟨rfl, normalizePrices_dup_eval, by norm_num⟩

/-- Witness for C3 at the one-point series \x7b"a" ↦ [(5, 2)]\x7d with
reference timestamp 5. -/
theorem c3_witness :
    (("a", [((5 : ℤ), (2 : ℚ) / 2 * 100)]) ∈
        normalizePrices [("a", [(5, 2)])] 5) ∧
      ([((5 : ℤ), (2 : ℚ) / 2 * 100)])[0]? = some (5, 100) := by
  have h := c3_normalize_first_exact_ref [("a", [(5, 2)])] 5 "a" [] [] 2
    (by simp) (by simp) (by norm_num)
  simpa using h

/-- In an association list whose keys are distinct, a key determines its
value. -/
theorem assoc_eq_of_nodup_keys {α β : Type _} (l : List (α × β))
    (hk : (l.map Prod.fst).Nodup) (a : α) (b c : β)
    (h1 : (a, b) ∈ l) (h2 : (a, c) ∈ l) : b = c := by
  induction l with
  | nil => cases h1
  | cons x xs ih =>
    rw [List.map_cons, List.nodup_cons] at hk
    rcases List.mem_cons.mp h1 with rfl | h1'
    · rcases List.mem_cons.mp h2 with h | h2'
      · exact (congrArg Prod.snd h).symm
      · exact absurd (List.mem_map.mpr ⟨(a, c), h2', rfl⟩) hk.1
    · rcases List.mem_cons.mp h2 with rfl | h2'
      · exact absurd (List.mem_map.mpr ⟨(a, b), h1', rfl⟩) hk.1
      · exact ih hk.2 h1' h2'

/-- C4: a series whose closest point to the reference has value ≤ 0 is
absent from the output of `normalizePrices`, and every series that does
appear is the rescaled (never raw) version of an input series whose
reference value was positive. -/
theorem c4_nonpositive_reference_dropped
    (prices : List (String × List (ℤ × ℚ))) (ref : ℤ) :
    (∀ id data rp, (prices.map Prod.fst).Nodup → (id, data) ∈ prices →
      findReference data ref = some rp → rp ≤ 0 →
      ∀ s, (id, s) ∉ normalizePrices prices ref) ∧
    (∀ id s, (id, s) ∈ normalizePrices prices ref →
      ∃ data rp, (id, data) ∈ prices ∧ findReference data ref = some rp ∧
        0 < rp ∧ s = data.map fun q => (q.1, q.2 / rp * 100)) := by
  constructor
  · intro id data rp hk hmem hfind hrp s hs
    obtain ⟨⟨id', data'⟩, hent, heq⟩ := List.mem_filterMap.mp hs
    dsimp only at heq
    rcases hcase : findReference data' ref with _ | rp'
    · rw [hcase] at heq; cases heq
    · rw [hcase] at heq
      dsimp only at heq
      by_cases h0 : 0 < rp'
      · rw [if_pos h0] at heq
        have hid : id' = id := congrArg Prod.fst (Option.some.inj heq)
        subst hid
        have hdata : data' = data :=
          assoc_eq_of_nodup_keys prices hk id' data' data hent hmem
        subst hdata
        rw [hfind] at hcase
        have : rp' = rp := (Option.some.inj hcase).symm
        subst this
        exact absurd h0 (not_lt.mpr hrp)
      · rw [if_neg h0] at heq; cases heq
  · intro id s hs
    obtain ⟨⟨id', data'⟩, hent, heq⟩ := List.mem_filterMap.mp hs
    dsimp only at heq
    rcases hcase : findReference data' ref with _ | rp'
    · rw [hcase] at heq; cases heq
    · rw [hcase] at heq
      dsimp only at heq
      by_cases h0 : 0 < rp'
      · rw [if_pos h0] at heq
        have hpair := Option.some.inj heq
        have hid : id' = id := congrArg Prod.fst hpair
        subst hid
        exact ⟨data', rp', hent, hcase, h0,
          (congrArg Prod.snd hpair).symm⟩
      · rw [if_neg h0] at heq; cases heq

/-- Witness for C4: the series \x7b"a" ↦ [(0, -1)]\x7d, whose closest point to
reference 0 has the non-positive value -1, is dropped. -/
theorem c4_witness :
    ("a", ([] : List (ℤ × ℚ))) ∉
      normalizePrices [("a", [((0 : ℤ), (-1 : ℚ))])] 0 :=
  (c4_nonpositive_reference_dropped [("a", [((0 : ℤ), (-1 : ℚ))])] 0).1
    "a" [((0 : ℤ), (-1 : ℚ))] (-1) (by simp) (by simp) rfl (by norm_num) []

/-- Adding a pinned asset preserves the pinned-cap and distinct-id
invariant. -/
theorem handleAddPinned_invariant (l : List SelectedAsset) (c : Coin)
    (h : assetInvariant l) : assetInvariant (handleAddPinned l c) := by
  obtain ⟨h1, h2⟩ := h
  unfold handleAddPinned
  by_cases hfull : MAX_PINNED ≤ (l.filter (·.isPinned)).length
  · rw [if_pos hfull]; exact ⟨h1, h2⟩
  rw [if_neg hfull]
  by_cases hdup : l.any (fun a => a.coin.id == c.id)
  · rw [if_pos hdup]; exact ⟨h1, h2⟩
  rw [if_neg hdup]
  have hnotmem : c.id ∉ l.map (·.coin.id) := by
    intro hmem
    obtain ⟨a, ha, hid⟩ := List.mem_map.mp hmem
    exact hdup (List.any_eq_true.mpr ⟨a, ha, by simp [hid]⟩)
  constructor
  · unfold pinnedCount at *
    rw [List.filter_append]
    have hone :
        (List.filter (fun a => a.isPinned)
          [(⟨c, true, getColor l.length, true, none⟩ : SelectedAsset)]) =
          [⟨c, true, getColor l.length, true, none⟩] := rfl
    rw [List.length_append, hone, List.length_singleton]
    unfold MAX_PINNED at *
    omega
  · rw [List.map_append]
    refine List.Nodup.append h2 (List.nodup_singleton _) ?_
    intro x hx hx1
    simp only [List.map_cons, List.map_nil, List.mem_singleton] at hx1
    subst hx1
    exact hnotmem hx

/-- Adding a comparison asset preserves the invariant. -/
theorem handleAddComparison_invariant (l : List SelectedAsset) (c : Coin)
    (h : assetInvariant l) : assetInvariant (handleAddComparison l c) := by
  obtain ⟨h1, h2⟩ := h
  unfold handleAddComparison
  by_cases hdup : l.any (fun a => a.coin.id == c.id)
  · rw [if_pos hdup]; exact ⟨h1, h2⟩
  rw [if_neg hdup]
  have hnotmem : c.id ∉ l.map (·.coin.id) := by
    intro hmem
    obtain ⟨a, ha, hid⟩ := List.mem_map.mp hmem
    exact hdup (List.any_eq_true.mpr ⟨a, ha, by simp [hid]⟩)
  constructor
  · unfold pinnedCount at *
    rw [List.filter_append]
    have hzero :
        (List.filter (fun a => a.isPinned)
          [(⟨c, false, getColor l.length, true, none⟩ : SelectedAsset)]) =
          [] := rfl
    rw [List.length_append, hzero]
    simpa using h1
  · rw [List.map_append]
    refine List.Nodup.append h2 (List.nodup_singleton _) ?_
    intro x hx hx1
    simp only [List.map_cons, List.map_nil, List.mem_singleton] at hx1
    subst hx1
    exact hnotmem hx

/-- Removing an asset preserves the invariant. -/
theorem handleRemoveAsset_invariant (l : List SelectedAsset) (cid : String)
    (h : assetInvariant l) : assetInvariant (handleRemoveAsset l cid) := by
  obtain ⟨h1, h2⟩ := h
  constructor
  · exact le_trans
      (List.Sublist.length_le
        (List.Sublist.filter _ (List.filter_sublist l)))
      h1
  · exact List.Nodup.sublist
      (List.Sublist.map _ (List.filter_sublist l)) h2

/-- Toggling visibility changes neither the pinned flags nor the ids, so it
preserves the invariant. -/
theorem handleToggleVisibility_invariant (l : List SelectedAsset)
    (cid : String) (h : assetInvariant l) :
    assetInvariant (handleToggleVisibility l cid) := by
  obtain ⟨h1, h2⟩ := h
  have hpin : ∀ a : SelectedAsset,
      ((if a.coin.id == cid then { a with visible := !a.visible } else a) :
        SelectedAsset).isPinned = a.isPinned := by
    intro a; split <;> rfl
  have hcoin : ∀ a : SelectedAsset,
      ((if a.coin.id == cid then { a with visible := !a.visible } else a) :
        SelectedAsset).coin = a.coin := by
    intro a; split <;> rfl
  constructor
  · unfold pinnedCount handleToggleVisibility at *
    rw [List.filter_map, List.length_map,
      List.filter_congr (fun a _ => by
        simp only [Function.comp_apply]
        exact hpin a)]
    exact h1
  · unfold handleToggleVisibility
    rw [List.map_map]
    have he : ((fun a : SelectedAsset => a.coin.id) ∘
        fun a : SelectedAsset =>
          if a.coin.id == cid then { a with visible := !a.visible } else a) =
        fun a : SelectedAsset => a.coin.id :=
      funext fun a => by simp only [Function.comp_apply]; rw [hcoin a]
    rw [he]
    exact h2

/-- Every single operation preserves the invariant. -/
theorem applyOp_invariant (s : List SelectedAsset) (op : AssetOp)
    (h : assetInvariant s) : assetInvariant (applyOp s op) := by
  cases op with
  | addPinned c => exact handleAddPinned_invariant s c h
  | addComparison c => exact handleAddComparison_invariant s c h
  | remove cid => exact handleRemoveAsset_invariant s cid h
  | toggleVisibility cid => exact handleToggleVisibility_invariant s cid h

/-- Every operation sequence preserves the invariant. -/
theorem applyOps_invariant :
    ∀ (ops : List AssetOp) (s : List SelectedAsset),
      assetInvariant s → assetInvariant (applyOps ops s) := by
  intro ops
  induction ops with
  | nil => intro s h; exact h
  | cons op rest ih =>
    intro s h
    exact ih (applyOp s op) (applyOp_invariant s op h)

/-- C7: every state reachable from the empty selection by the four asset
operations has at most `MAX_PINNED` pinned assets and pairwise-distinct coin
ids; moreover adding a pinned asset when the cap is reached, or adding any
asset whose id is already selected, returns the list unchanged. -/
theorem c7_selection_invariant (ops : List AssetOp) :
    (pinnedCount (applyOps ops []) ≤ MAX_PINNED ∧
      ((applyOps ops []).map (·.coin.id)).Nodup) ∧
    (∀ (l : List SelectedAsset) (c : Coin),
      MAX_PINNED ≤ pinnedCount l → handleAddPinned l c = l) ∧
    (∀ (l : List SelectedAsset) (c : Coin), c.id ∈ l.map (·.coin.id) →
      handleAddPinned l c = l ∧ handleAddComparison l c = l) := by
  refine ⟨applyOps_invariant ops [] ⟨by simp [pinnedCount], by simp⟩, ?_, ?_⟩
  · intro l c h
    unfold pinnedCount at h
    unfold handleAddPinned
    rw [if_pos h]
  · intro l c h
    have hany : l.any (fun a => a.coin.id == c.id) = true := by
      obtain ⟨a, ha, hid⟩ := List.mem_map.mp h
      exact List.any_eq_true.mpr ⟨a, ha, by simp [hid]⟩
    constructor
    · unfold handleAddPinned
      by_cases hfull : MAX_PINNED ≤ (l.filter (·.isPinned)).length
      · rw [if_pos hfull]
      · rw [if_neg hfull, if_pos hany]
    · unfold handleAddComparison
      rw [if_pos hany]

/-- Witness for C7: the invariant holds for a concrete operation sequence,
a fifth pinned asset is refused, and a duplicate id is refused on both
paths. -/
theorem c7_witness :
    (pinnedCount
        (applyOps [AssetOp.addPinned coinA, AssetOp.addComparison coinB] []) ≤
          MAX_PINNED ∧
      ((applyOps [AssetOp.addPinned coinA, AssetOp.addComparison coinB]
          []).map (·.coin.id)).Nodup) ∧
    handleAddPinned fourPinned coinF = fourPinned ∧
    handleAddPinned [assetA] coinA = [assetA] ∧
    handleAddComparison [assetA] coinA = [assetA] :=
  ⟨(c7_selection_invariant
      [AssetOp.addPinned coinA, AssetOp.addComparison coinB]).1,
   (c7_selection_invariant []).2.1 fourPinned coinF (by decide),
   ((c7_selection_invariant []).2.2 [assetA] coinA (by decide)).1,
   ((c7_selection_invariant []).2.2 [assetA] coinA (by decide)).2⟩

/-- The colour law `asset at position i has colour getColor i` survives every
operation except removal. -/
theorem applyOp_no_remove_colors (s : List SelectedAsset) (op : AssetOp)
    (hop : isRemoveOp op = false)
    (h : ∀ i a, s[i]? = some a → a.color = getColor i) :
    ∀ i a, (applyOp s op)[i]? = some a → a.color = getColor i := by
  cases op with
  | remove cid => simp [isRemoveOp] at hop
  | toggleVisibility cid =>
    intro i a ha
    simp only [applyOp, handleToggleVisibility] at ha
    rw [List.getElem?_map _ _ i] at ha
    cases hs : s[i]? with
    | none => rw [hs] at ha; cases ha
    | some b =>
      rw [hs] at ha
      simp only [Option.map_some'] at ha
      have hb := h i b hs
      have hcol : a.color = b.color := by
        rw [← Option.some.inj ha]
        split <;> rfl
      rw [hcol, hb]
  | addPinned c =>
    intro i a ha
    simp only [applyOp, handleAddPinned] at ha
    by_cases hfull : MAX_PINNED ≤ (s.filter (·.isPinned)).length
    · rw [if_pos hfull] at ha; exact h i a ha
    rw [if_neg hfull] at ha
    by_cases hdup : s.any (fun x => x.coin.id == c.id)
    · rw [if_pos hdup] at ha; exact h i a ha
    rw [if_neg hdup] at ha
    by_cases hi : i < s.length
    · rw [List.getElem?_append_left hi] at ha; exact h i a ha
    · have hle : s.length ≤ i := le_of_not_lt hi
      rw [List.getElem?_append_right hle] at ha
      cases hni : i - s.length with
      | zero =>
        rw [hni, List.getElem?_cons_zero] at ha
        have hieq : i = s.length := by omega
        rw [← Option.some.inj ha, hieq]
      | succ n => rw [hni] at ha; simp at ha
  | addComparison c =>
    intro i a ha
    simp only [applyOp, handleAddComparison] at ha
    by_cases hdup : s.any (fun x => x.coin.id == c.id)
    · rw [if_pos hdup] at ha; exact h i a ha
    rw [if_neg hdup] at ha
    by_cases hi : i < s.length
    · rw [List.getElem?_append_left hi] at ha; exact h i a ha
    · have hle : s.length ≤ i := le_of_not_lt hi
      rw [List.getElem?_append_right hle] at ha
      cases hni : i - s.length with
      | zero =>
        rw [hni, List.getElem?_cons_zero] at ha
        have hieq : i = s.length := by omega
        rw [← Option.some.inj ha, hieq]
      | succ n => rw [hni] at ha; simp at ha

/-- Over a removal-free operation sequence, the colour law is an
invariant. -/
theorem applyOps_no_remove_colors :
    ∀ (ops : List AssetOp), (ops.all fun op => !isRemoveOp op) →
      ∀ (s : List SelectedAsset),
        (∀ i a, s[i]? = some a → a.color = getColor i) →
        ∀ i a, (applyOps ops s)[i]? = some a → a.color = getColor i := by
  intro ops
  induction ops with
  | nil => intro _ s h; exact h
  | cons op rest ih =>
    intro hall s h
    rw [List.all_cons, Bool.and_eq_true] at hall
    have hop : isRemoveOp op = false := by
      cases hcase : isRemoveOp op
      · rfl
      · rw [hcase] at hall; cases hall.1
    exact ih hall.2 (applyOp s op) (applyOp_no_remove_colors s op hop h)

/-- C8 counterexample: after addPinned a, addPinned b, remove a, addPinned c,
the coin "c" is the third asset ever inserted (k = 2), yet it receives
`getColor 1`, the same colour as "b" — not `getColor 2` as the claim's
insertion-order rule predicts — because the removal of "a" shrank the list
length used to pick the colour. -/
theorem c8_counterexample :
    applyOps [AssetOp.addPinned coinA, AssetOp.addPinned coinB,
        AssetOp.remove "a", AssetOp.addPinned coinC] [] =
      [⟨coinB, true, getColor 1, true, none⟩,
       ⟨coinC, true, getColor 1, true, none⟩] ∧
    getColor 1 ≠ getColor 2 := by
  constructor
  · rfl
  · decide

/-- C8 (amended): a newly added asset's colour is
`CHART_COLORS[length of the selected list at insertion time mod 10]`. With no
removals this equals the insertion index, so the k-th asset ever inserted
gets palette colour k mod 10; a removal shifts the colours of later
insertions. -/
theorem c8_color_from_length_at_insert :
    (∀ (l : List SelectedAsset) (c : Coin),
      pinnedCount l < MAX_PINNED → c.id ∉ l.map (·.coin.id) →
      handleAddPinned l c = l ++ [⟨c, true, getColor l.length, true, none⟩]) ∧
    (∀ (l : List SelectedAsset) (c : Coin), c.id ∉ l.map (·.coin.id) →
      handleAddComparison l c =
        l ++ [⟨c, false, getColor l.length, true, none⟩]) ∧
    (∀ (ops : List AssetOp), (ops.all fun op => !isRemoveOp op) →
      ∀ i a, (applyOps ops [])[i]? = some a → a.color = getColor i) := by
  refine ⟨?_, ?_, ?_⟩
  · intro l c hcount hmem
    have hany : ¬(l.any fun a => a.coin.id == c.id) = true := by
      intro hc
      obtain ⟨a, ha, hid⟩ := List.any_eq_true.mp hc
      exact hmem (List.mem_map.mpr ⟨a, ha, by simpa using hid⟩)
    unfold handleAddPinned pinnedCount at *
    rw [if_neg (by omega : ¬MAX_PINNED ≤ (l.filter (·.isPinned)).length),
      if_neg hany]
  · intro l c hmem
    have hany : ¬(l.any fun a => a.coin.id == c.id) = true := by
      intro hc
      obtain ⟨a, ha, hid⟩ := List.any_eq_true.mp hc
      exact hmem (List.mem_map.mpr ⟨a, ha, by simpa using hid⟩)
    unfold handleAddComparison
    rw [if_neg hany]
  · intro ops hall i a ha
    exact applyOps_no_remove_colors ops hall [] (fun i a h => by cases h)
      i a ha

/-- Witness for C8: concrete additions receive the colour indexed by the list
length at insertion, and over a removal-free sequence the second-inserted
asset carries `getColor 1`. -/
theorem c8_witness :
    handleAddPinned [] coinA = [⟨coinA, true, getColor 0, true, none⟩] ∧
    handleAddComparison [assetA] coinB =
      [assetA, ⟨coinB, false, getColor 1, true, none⟩] ∧
    (⟨coinB, false, getColor 1, true, none⟩ : SelectedAsset).color =
      getColor 1 := by
  refine ⟨c8_color_from_length_at_insert.1 [] coinA (by decide) (by decide),
    c8_color_from_length_at_insert.2.1 [assetA] coinB (by decide), ?_⟩
  exact c8_color_from_length_at_insert.2.2
    [AssetOp.addPinned coinA, AssetOp.addComparison coinB] (by decide) 1
    ⟨coinB, false, getColor 1, true, none⟩ rfl

/-- Shifting the running index by the stride leaves the sampling
unchanged. -/
theorem sampleEvery_shift (s : ℕ) :
    ∀ (l : List ℤ) (i : ℕ), sampleEvery s (i + s) l = sampleEvery s i l := by
  intro l
  induction l with
  | nil => intro i; rfl
  | cons x xs ih =>
    intro i
    simp only [sampleEvery, Nat.add_mod_right]
    rw [show i + s + 1 = (i + 1) + s by omega, ih (i + 1)]

/-- Sampling from phase `j` (1 ≤ j ≤ s) keeps exactly what sampling from
phase 0 keeps after dropping the `s - j` elements before the next multiple
of `s`. -/
theorem sampleEvery_phase (s : ℕ) (hs : 0 < s) :
    ∀ (l : List ℤ) (j : ℕ), 1 ≤ j → j ≤ s →
      sampleEvery s j l = sampleEvery s 0 (l.drop (s - j)) := by
  intro l
  induction l with
  | nil => intro j _ _; simp [sampleEvery]
  | cons y ys ih =>
    intro j h1 h2
    rcases eq_or_lt_of_le h2 with rfl | hlt
    · rw [Nat.sub_self, List.drop_zero]
      simpa using sampleEvery_shift j (y :: ys) 0
    · have hj : j % s = j := Nat.mod_eq_of_lt hlt
      have hne : ¬j % s = 0 := by omega
      simp only [sampleEvery, if_neg hne]
      have hd : s - j = (s - j - 1) + 1 := by omega
      rw [hd, List.drop_succ_cons, ih (j + 1) (by omega) (by omega),
        Nat.sub_sub]

/-- Sampling with stride `s` keeps the head and recurses after dropping the
next `s - 1` elements. -/
theorem sampleEvery_cons (s : ℕ) (hs : 0 < s) (x : ℤ) (xs : List ℤ) :
    sampleEvery s 0 (x :: xs) = x :: sampleEvery s 0 (xs.drop (s - 1)) := by
  simp only [sampleEvery, Nat.zero_mod, eq_self_iff_true, if_true]
  rw [sampleEvery_phase s hs xs 1 le_rfl hs]

/-- The sampled length times the stride is below the list length plus the
stride: one kept element per stride-sized block. -/
theorem sampleEvery_mul_le (s : ℕ) (hs : 0 < s) :
    ∀ (n : ℕ) (l : List ℤ), l.length ≤ n →
      (sampleEvery s 0 l).length * s ≤ l.length + (s - 1) := by
  intro n
  induction n with
  | zero =>
    intro l hl
    have h0 : l = [] := List.eq_nil_of_length_eq_zero (Nat.le_zero.mp hl)
    subst h0
    simp [sampleEvery]
  | succ m ih =>
    intro l hl
    cases l with
    | nil => simp [sampleEvery]
    | cons x xs =>
      rw [sampleEvery_cons s hs, List.length_cons, List.length_cons,
        Nat.succ_mul]
      by_cases hshort : xs.length ≤ s - 1
      · rw [List.drop_eq_nil_of_le hshort]
        simp only [sampleEvery, List.length_nil, Nat.zero_mul, Nat.zero_add]
        omega
      · have hdl : (xs.drop (s - 1)).length = xs.length - (s - 1) :=
          List.length_drop _ _
        have hlen : xs.length ≤ m := by
          rw [List.length_cons] at hl; omega
        have hb := ih (xs.drop (s - 1)) (by rw [hdl]; omega)
        rw [hdl] at hb
        generalize hF : (sampleEvery s 0 (xs.drop (s - 1))).length * s = F
          at hb ⊢
        omega

/-- Under a length budget of `500 * stride`, at most 500 elements are
kept. -/
theorem sampleEvery_budget (s : ℕ) (hs : 0 < s) (l : List ℤ)
    (h : l.length ≤ 500 * s) : (sampleEvery s 0 l).length ≤ 500 := by
  have hb := sampleEvery_mul_le s hs l.length l le_rfl
  by_contra hgt
  push_neg at hgt
  have hmul : 501 * s ≤ (sampleEvery s 0 l).length * s :=
    Nat.mul_le_mul_right s (by omega)
  generalize hF : (sampleEvery s 0 l).length * s = F at hb hmul
  omega

/-- The sampled timestamp axis never exceeds 500 entries. -/
theorem sampledTimestamps_le_500 (assets : List SelectedAsset)
    (priceData : List (String × List (ℤ × ℚ))) :
    (sampledTimestamps assets priceData).length ≤ 500 := by
  unfold sampledTimestamps
  apply sampleEvery_budget
  · unfold chartStep
    split
    · exact Nat.div_pos (by omega) (by omega)
    · exact Nat.one_pos
  · unfold chartStep
    split
    · next h =>
      have hdm := Nat.div_add_mod
        ((chartTimestamps assets priceData).length + 499) 500
      have hm : ((chartTimestamps assets priceData).length + 499) % 500 <
          500 := Nat.mod_lt _ (by omega)
      omega
    · next h => omega

/-- C5: the chart builder outputs at most 500 records; the sampled axis
always starts with the first (index 0) unioned timestamp; and the stride is
`Math.ceil(length / 500)` exactly when more than 500 timestamps exist, else
1. -/
theorem c5_chart_point_budget (assets : List SelectedAsset)
    (priceData : List (String × List (ℤ × ℚ))) :
    (buildChartData assets priceData).length ≤ 500 ∧
    (∀ t ts, chartTimestamps assets priceData = t :: ts →
      (sampledTimestamps assets priceData).head? = some t) ∧
    chartStep assets priceData =
      (if 500 < (chartTimestamps assets priceData).length then
        ((chartTimestamps assets priceData).length + 499) / 500
      else 1) := by
  refine ⟨?_, ?_, rfl⟩
  · exact le_trans (List.length_filterMap_le _ _)
      (sampledTimestamps_le_500 assets priceData)
  · intro t ts h
    unfold sampledTimestamps
    rw [h]
    simp [sampleEvery, Nat.zero_mod]

/-- Witness for C5 on a two-point series for one visible asset. -/
theorem c5_witness :
    (buildChartData [assetA]
        [("a", [((0 : ℤ), (1 : ℚ)), (1, 2)])]).length ≤ 500 ∧
    (sampledTimestamps [assetA]
        [("a", [((0 : ℤ), (1 : ℚ)), (1, 2)])]).head? = some 0 :=
  ⟨(c5_chart_point_budget [assetA] [("a", [((0 : ℤ), (1 : ℚ)), (1, 2)])]).1,
   (c5_chart_point_budget [assetA]
      [("a", [((0 : ℤ), (1 : ℚ)), (1, 2)])]).2.1 0 [1] (by decide)⟩

/-- C6: every record emitted by the chart builder carries at least one
attached asset value (under a key distinct from the reserved `timestamp` and
`date` field names); value-less records are dropped. -/
theorem c6_records_have_values (assets : List SelectedAsset)
    (priceData : List (String × List (ℤ × ℚ))) (rec : ChartRecord)
    (h : rec ∈ buildChartData assets priceData) :
    ∃ p ∈ rec.values, p.1 ≠ "timestamp" ∧ p.1 ≠ "date" := by
  obtain ⟨ts, hts, heq⟩ := List.mem_filterMap.mp h
  dsimp only at heq
  by_cases hc : (chartPointValues assets priceData ts).any
      (fun p => !(p.1 == "timestamp") && !(p.1 == "date")) = true
  · rw [if_pos hc] at heq
    obtain ⟨p, hp, hb⟩ := List.any_eq_true.mp hc
    have hrec : rec = ⟨ts, chartPointValues assets priceData ts⟩ :=
      (Option.some.inj heq).symm
    subst hrec
    refine ⟨p, hp, ?_⟩
    simpa [Bool.and_eq_true, Bool.not_eq_true', beq_eq_false_iff_ne]
      using hb
  · rw [if_neg hc] at heq; cases heq

/-- Witness for C6: the single record built from a one-point series carries
the asset value keyed by "a". -/
theorem c6_witness :
    ∃ p ∈ (ChartRecord.mk 0 [("a", 1)]).values,
      p.1 ≠ "timestamp" ∧ p.1 ≠ "date" :=
  c6_records_have_values [assetA] [("a", [((0 : ℤ), (1 : ℚ))])]
    ⟨0, [("a", 1)]⟩ (by decide)
